import Mathlib

/-!
Shallow embedding of the core of the `chronicle.rs` repository:

- the sync reconciliation model (`SyncData` and its construction/extraction
  operations) from `chronicle-broker/src/types.rs` (the `sync` module);
- the milestone data aggregate (`MilestoneData`, `Analytics`, `FullMessage`)
  from the same file;
- the one-for-one supervision loop generated by
  `chronicle-common/src/macros/launcher.rs`.

Machine integers (`u32`, `u128`) are modelled as `Nat`.  The one subtraction
that can underflow in the source (`sync_range.from - 1`) is modelled as a
fallible step (`Option` result, `none` standing for the Rust overflow panic);
`u128` accumulator additions are reduced modulo `2 ^ 128` where the source can
wrap.  `u32` additions in the sync module (`milestone_index + 1`) cannot
overflow for indices below the queried `to : u32` bound, so they stay plain
`Nat` additions.
-/

namespace Chronicle

/-- Embedding of Rust `Range<u32>` (half-open `start..end`).  The upper bound
field is named `stop` because `end` is a Lean keyword. -/
structure Range32 where
  start : Nat
  stop : Nat
deriving DecidableEq, Repr

/-- A row of the sync table (`chronicle_storage::access::SyncRecord`): the
milestone index plus the optional `logged_by` tag (`Option<u8>`).  The other
fields of the source struct are unused by the reconciliation algorithm. -/
structure SyncRecord where
  milestone_index : Nat
  logged_by : Option Nat
deriving DecidableEq, Repr

/-- `SyncData` of `chronicle-broker/src/types.rs`: the three range sequences
(`Vec<Range<u32>>` modelled as `List Range32`, same order; `Vec::push` appends
at the tail, `Vec::pop`/`last` act on the tail). -/
structure SyncData where
  completed : List Range32
  synced_but_unlogged : List Range32
  gaps : List Range32
deriving DecidableEq, Repr

/-- `SyncData::default()`: all three sequences empty. -/
def SyncData.default : SyncData :=
  { completed := [], synced_but_unlogged := [], gaps := [] }

/-- `SyncData::process_gaps`: push the gap `[milestone_index + 1, pre_ms)`
when it is not degenerate. -/
def SyncData.process_gaps (sd : SyncData) (pre_ms milestone_index : Nat) : SyncData :=
  let gap_start := milestone_index + 1
  if gap_start ≠ pre_ms then
    { sd with gaps := sd.gaps ++ [⟨gap_start, pre_ms⟩] }
  else
    sd

/-- `SyncData::proceed`: append the singleton range `[milestone_index,
milestone_index + 1)` to `ranges`, except that when `check` holds and the last
range starts exactly at `milestone_index + 1` that range is extended downward
(its `start` is lowered to `milestone_index`). -/
def SyncData.proceed (ranges : List Range32) (milestone_index : Nat) (check : Bool) : List Range32 :=
  let end_ms := milestone_index + 1
  match ranges.getLast? with
  | some last =>
    if check ∧ last.start = end_ms then
      ranges.dropLast ++ [⟨milestone_index, last.stop⟩]
    else
      ranges ++ [⟨milestone_index, end_ms⟩]
  | none => ranges ++ [⟨milestone_index, end_ms⟩]

/-- `SyncData::process_rest`: classify a record into `completed` (when
`logged_by` is present) or `synced_but_unlogged` (when absent), with the
continuity flag derived from the previous record's `logged_by`. -/
def SyncData.process_rest (sd : SyncData) (logged_by : Option Nat) (milestone_index : Nat)
    (pre_lb : Option Nat) : SyncData :=
  if logged_by.isSome then
    { sd with completed := SyncData.proceed sd.completed milestone_index pre_lb.isSome }
  else
    { sd with synced_but_unlogged := SyncData.proceed sd.synced_but_unlogged milestone_index pre_lb.isNone }

/-- The `while let Some(SyncRecord { .. }) = sync_rows.next()` loop of
`SyncData::try_fetch`, threading `pre_ms` and `pre_lb`; returns the final
state together with the last processed milestone index. -/
def SyncData.try_fetch_loop (sd : SyncData) (pre_ms : Nat) (pre_lb : Option Nat) :
    List SyncRecord → SyncData × Nat
  | [] => (sd, pre_ms)
  | r :: rest =>
    let sd := sd.process_gaps pre_ms r.milestone_index
    let sd := sd.process_rest r.logged_by r.milestone_index pre_lb
    SyncData.try_fetch_loop sd r.milestone_index r.logged_by rest

/-- The reconciliation part of `SyncData::try_fetch` (the I/O around it -
issuing the select and receiving the row stream - is external; `records` is
the received row stream, ordered by descending milestone index).  The `u32`
subtraction `sync_range.from - 1` underflows (Rust panic) when `from = 0`,
modelled as `none`; it is evaluated in the empty-stream branch and in the
final `process_gaps` call of the non-empty branch. -/
def SyncData.try_fetch (sync_range_from sync_range_to : Nat) (records : List SyncRecord) :
    Option SyncData :=
  match records with
  | [] =>
    if sync_range_from = 0 then none
    else some (SyncData.default.process_gaps sync_range_to (sync_range_from - 1))
  | r :: rest =>
    let sd := SyncData.default.process_gaps sync_range_to r.milestone_index
    let sd := sd.process_rest r.logged_by r.milestone_index none
    let res := SyncData.try_fetch_loop sd r.milestone_index r.logged_by rest
    if sync_range_from = 0 then none
    else some (res.1.process_gaps res.2 (sync_range_from - 1))

/-- `SyncData::take_lowest_gap` (`self.gaps.pop()`): the returned range and
the updated state. -/
def SyncData.take_lowest_gap (sd : SyncData) : Option Range32 × SyncData :=
  (sd.gaps.getLast?, { sd with gaps := sd.gaps.dropLast })

/-- `SyncData::take_lowest_unlogged` (`self.synced_but_unlogged.pop()`). -/
def SyncData.take_lowest_unlogged (sd : SyncData) : Option Range32 × SyncData :=
  (sd.synced_but_unlogged.getLast?, { sd with synced_but_unlogged := sd.synced_but_unlogged.dropLast })

/-- `SyncData::take_lowest_gap_or_unlogged`: compare the two tail ranges by
`start` and pop the chosen sequence (the `else` branch - thus also the equal
`start` case - pops `synced_but_unlogged`). -/
def SyncData.take_lowest_gap_or_unlogged (sd : SyncData) : Option Range32 × SyncData :=
  match sd.gaps.getLast?, sd.synced_but_unlogged.getLast? with
  | some gap, some unlogged =>
    if gap.start < unlogged.start then
      (some gap, { sd with gaps := sd.gaps.dropLast })
    else
      (some unlogged, { sd with synced_but_unlogged := sd.synced_but_unlogged.dropLast })
  | some gap, none => (some gap, { sd with gaps := sd.gaps.dropLast })
  | none, some unlogged => (some unlogged, { sd with synced_but_unlogged := sd.synced_but_unlogged.dropLast })
  | none, none => (none, sd)

/-- `SyncData::get_lowest_gap_or_unlogged`: same selection without popping. -/
def SyncData.get_lowest_gap_or_unlogged (sd : SyncData) : Option Range32 :=
  match sd.gaps.getLast?, sd.synced_but_unlogged.getLast? with
  | some gap, some unlogged =>
    if gap.start < unlogged.start then some gap else some unlogged
  | some gap, none => some gap
  | none, some unlogged => some unlogged
  | none, none => none

/-- Termination measure for the `take_lowest_uncomplete` loop. -/
def SyncData.size (sd : SyncData) : Nat :=
  sd.gaps.length + sd.synced_but_unlogged.length

/-- The `loop` inside `SyncData::take_lowest_uncomplete`, with `pre` the
accumulated `pre_range`. -/
def SyncData.uncomplete_loop (pre : Range32) (sd : SyncData) : Option Range32 × SyncData :=
  match h : sd.get_lowest_gap_or_unlogged with
  | some next =>
    if next.start = pre.stop then
      SyncData.uncomplete_loop ⟨pre.start, next.stop⟩ sd.take_lowest_gap_or_unlogged.2
    else
      (some pre, sd)
  | none => (some pre, sd)
termination_by sd.size
decreasing_by
  simp only [SyncData.size, SyncData.take_lowest_gap_or_unlogged,
    SyncData.get_lowest_gap_or_unlogged] at h ⊢
  rcases hg : sd.gaps.getLast? with _ | g <;> rcases hu : sd.synced_but_unlogged.getLast? with _ | u <;>
    simp only [hg, hu] at h ⊢
  · exact absurd h (by simp)
  · have hne : sd.synced_but_unlogged ≠ [] := by
      intro hnil
      rw [hnil] at hu
      simp at hu
    have := List.length_pos.mpr hne
    simp only [List.length_dropLast]
    omega
  · have hne : sd.gaps ≠ [] := by
      intro hnil
      rw [hnil] at hg
      simp at hg
    have := List.length_pos.mpr hne
    simp only [List.length_dropLast]
    omega
  · have hne : sd.gaps ≠ [] := by
      intro hnil
      rw [hnil] at hg
      simp at hg
    have hne' : sd.synced_but_unlogged ≠ [] := by
      intro hnil
      rw [hnil] at hu
      simp at hu
    have h1 := List.length_pos.mpr hne
    have h2 := List.length_pos.mpr hne'
    split <;> simp only [List.length_dropLast] <;> omega

/-- `SyncData::take_lowest_uncomplete`: take the lowest range and keep
absorbing the next-lowest range while it abuts the accumulated one. -/
def SyncData.take_lowest_uncomplete (sd : SyncData) : Option Range32 × SyncData :=
  match sd.take_lowest_gap_or_unlogged with
  | (some pre_range, sd1) => SyncData.uncomplete_loop pre_range sd1
  | (none, _) => (none, sd)

/-- Number of ranges in `rs` containing the index `i` (a half-open range
contains `i` when `start ≤ i < stop`). -/
def cnt (i : Nat) (rs : List Range32) : Nat :=
  rs.countP (fun r => decide (r.start ≤ i ∧ i < r.stop))

/-- Total multiplicity of the index `i` across the three sequences of `sd`. -/
def SyncData.total_count (i : Nat) (sd : SyncData) : Nat :=
  cnt i sd.completed + cnt i sd.synced_but_unlogged + cnt i sd.gaps

/-- Well-formedness of one range sequence as kept by `SyncData`: every range
is nonempty (`start < stop`) and consecutive ranges are disjoint in strictly
descending position (`next.stop ≤ previous.start`). -/
def ranges_ok : List Range32 → Bool
  | [] => true
  | [r] => decide (r.start < r.stop)
  | a :: b :: rest => decide (a.start < a.stop) && decide (b.stop ≤ a.start) && ranges_ok (b :: rest)

/-- The record stream is strictly descending by milestone index, starting
strictly below `bound`. -/
def records_descending_below (bound : Nat) : List SyncRecord → Bool
  | [] => true
  | r :: rest => decide (r.milestone_index < bound) && records_descending_below r.milestone_index rest

/-- Every record's milestone index is at least `low`. -/
def records_at_least (low : Nat) (records : List SyncRecord) : Bool :=
  records.all (fun r => decide (low ≤ r.milestone_index))

/-- The last (lowest) milestone index of the stream, defaulting to `p` for an
empty stream. -/
def last_index (p : Nat) : List SyncRecord → Nat
  | [] => p
  | r :: rest => last_index r.milestone_index rest

/-- Merge two range lists by ascending `start`; on equal starts the second
list's head is taken first, mirroring the strict `<` comparison in
`take_lowest_gap_or_unlogged` (whose `else` branch pops the unlogged side). -/
def mergeAsc : List Range32 → List Range32 → List Range32
  | [], ys => ys
  | x :: xs, [] => x :: xs
  | x :: xs, y :: ys =>
    if x.start < y.start then x :: mergeAsc xs (y :: ys)
    else y :: mergeAsc (x :: xs) ys
termination_by xs ys => xs.length + ys.length

/-- The gap and unlogged sequences of `sd` viewed as one work list in the
order `take_lowest_gap_or_unlogged` drains them (lowest first). -/
def SyncData.merged (sd : SyncData) : List Range32 :=
  mergeAsc sd.gaps.reverse sd.synced_but_unlogged.reverse

/-- Modelled from the spec: specification-side coalescing for
`take_lowest_uncomplete` ("coalescing results into one contiguous range as
long as each newly taken range's start equals the previous result's end"):
absorb ranges from the ascending work list while each abuts the accumulated
range, and return the accumulated union with the untouched remainder. -/
def spec_coalesce (acc : Range32) : List Range32 → Range32 × List Range32
  | [] => (acc, [])
  | r :: rest =>
    if r.start = acc.stop then spec_coalesce ⟨acc.start, r.stop⟩ rest
    else (acc, r :: rest)

/-- One sequence as the claims describe it: pairwise disjoint ranges in
strictly descending order of `start` (for half-open ranges listed
high-to-low, disjointness of the pair `a` before `b` is `b.stop ≤ a.start`). -/
def ranges_sorted (rs : List Range32) : Prop :=
  List.Pairwise (fun a b => b.stop ≤ a.start ∧ b.start < a.start) rs

instance (rs : List Range32) : Decidable (ranges_sorted rs) := by
  unfold ranges_sorted
  infer_instance

/-- All three sequences of `sd` are sorted in the above sense. -/
def SyncData.ordered (sd : SyncData) : Prop :=
  ranges_sorted sd.completed ∧ ranges_sorted sd.synced_but_unlogged ∧ ranges_sorted sd.gaps

/-- Invariant threaded through the `try_fetch` reconciliation loop, for the
queried upper bound `t` and the last processed milestone index `p`: the three
sequences partition `[p, t)` with multiplicity one, every range is nonempty,
consecutive ranges of one sequence are disjoint and descending, and every
range starts at or above `p`. -/
def loop_inv (t p : Nat) (sd : SyncData) : Prop :=
  (∀ i, sd.total_count i = if p ≤ i ∧ i < t then 1 else 0) ∧
  ((∀ r ∈ sd.completed, r.start < r.stop) ∧
    List.Chain' (fun a b => b.stop ≤ a.start) sd.completed) ∧
  ((∀ r ∈ sd.synced_but_unlogged, r.start < r.stop) ∧
    List.Chain' (fun a b => b.stop ≤ a.start) sd.synced_but_unlogged) ∧
  ((∀ r ∈ sd.gaps, r.start < r.stop) ∧
    List.Chain' (fun a b => b.stop ≤ a.start) sd.gaps) ∧
  (∀ r ∈ sd.completed, p ≤ r.start) ∧
  (∀ r ∈ sd.synced_but_unlogged, p ≤ r.start) ∧
  (∀ r ∈ sd.gaps, p ≤ r.start)

/-! ## Milestone data aggregate (`MilestoneData`, `Analytics`) -/

/-- Abstract message identifier (the source's `bee_message::MessageId`, an
opaque id with decidable equality). -/
abbrev MessageId := Nat

/-- Abstract milestone payload (`bee_message::prelude::MilestonePayload`);
only its presence matters to the embedded operations. -/
structure MilestonePayload where
  essence_index : Nat
deriving DecidableEq, Repr

/-- The output kinds of `bee_message::prelude::Output` that a transaction
payload can carry: the two signature-locked kinds recognized by
`get_analytics`, plus `treasury` standing for the remaining kinds (the
source's `_ => unreachable!()` arm). -/
inductive Output where
  | signatureLockedSingle (amount : Nat)
  | signatureLockedDustAllowance (amount : Nat)
  | treasury (amount : Nat)
deriving DecidableEq, Repr

/-- `bee_message::prelude::Essence` (non-exhaustive in the library): the
`Regular` kind recognized by `get_analytics`, plus `nonRegular` standing for
any other kind (the source's `else { unreachable!() }` branch). -/
inductive Essence where
  | regular (outputs : List Output)
  | nonRegular
deriving DecidableEq, Repr

/-- `bee_message::prelude::Payload`: the transaction kind inspected by
`get_analytics` (carrying its essence), plus `other` standing for every other
payload kind (milestone, indexation, ...). -/
inductive Payload where
  | transaction (essence : Essence)
  | other
deriving DecidableEq, Repr

/-- `bee_message::Message`, reduced to the one accessor `get_analytics` uses:
its optional payload. -/
structure Message where
  payload : Option Payload
deriving DecidableEq, Repr

/-- `chronicle_storage::access::MessageMetadata`, reduced to the fields the
embedded operations read. -/
structure MessageMetadata where
  message_id : MessageId
  referenced_by_milestone_index : Option Nat
deriving DecidableEq, Repr

/-- `FullMessage(pub Message, pub MessageMetadata)`. -/
structure FullMessage where
  message : Message
  metadata : MessageMetadata
deriving DecidableEq, Repr

/-- `FullMessage::message_id` (reads the metadata's id). -/
def FullMessage.message_id (fm : FullMessage) : MessageId :=
  fm.metadata.message_id

/-- `FullMessage::ref_ms`. -/
def FullMessage.ref_ms (fm : FullMessage) : Option Nat :=
  fm.metadata.referenced_by_milestone_index

/-- `CreatedBy`. -/
inductive CreatedBy where
  | Incoming
  | Expected
  | Syncer
deriving DecidableEq, Repr

/-- `HashMap` insertion on an association list: replace the value when the
key is present, otherwise add the binding. -/
def assoc_insert (msgs : List (MessageId × FullMessage)) (k : MessageId) (v : FullMessage) :
    List (MessageId × FullMessage) :=
  if msgs.any (fun p => p.1 = k) then
    msgs.map (fun p => if p.1 = k then (k, v) else p)
  else
    msgs ++ [(k, v)]

/-- `MilestoneData`: `messages : HashMap<MessageId, FullMessage>` is modelled
as an association list, `pending : HashMap<MessageId, ()>` as its key list. -/
structure MilestoneData where
  milestone_index : Nat
  milestone : Option MilestonePayload
  messages : List (MessageId × FullMessage)
  pending : List MessageId
  created_by : CreatedBy
deriving DecidableEq, Repr

/-- `MilestoneData::new`. -/
def MilestoneData.new (milestone_index : Nat) (created_by : CreatedBy) : MilestoneData :=
  { milestone_index := milestone_index
    milestone := none
    messages := []
    pending := []
    created_by := created_by }

/-- `MilestoneData::set_milestone` (`Option::replace`). -/
def MilestoneData.set_milestone (md : MilestoneData) (boxed_milestone_payload : MilestonePayload) :
    MilestoneData :=
  { md with milestone := some boxed_milestone_payload }

/-- `MilestoneData::milestone_exist`. -/
def MilestoneData.milestone_exist (md : MilestoneData) : Bool :=
  md.milestone.isSome

/-- `MilestoneData::add_full_message`
(`self.messages.insert(*full_message.message_id(), full_message)`). -/
def MilestoneData.add_full_message (md : MilestoneData) (full_message : FullMessage) : MilestoneData :=
  { md with messages := assoc_insert md.messages full_message.message_id full_message }

/-- `MilestoneData::remove_from_pending` (`HashMap::remove` on the key set). -/
def MilestoneData.remove_from_pending (md : MilestoneData) (message_id : MessageId) : MilestoneData :=
  { md with pending := md.pending.filter (fun x => x ≠ message_id) }

/-- States of the aggregate reachable from a fresh `MilestoneData::new` by
the mutating operations of `chronicle-broker/src/types.rs`: `set_milestone`,
`add_full_message` and `remove_from_pending`. -/
inductive MilestoneReachable : MilestoneData → Prop where
  | new (idx : Nat) (cb : CreatedBy) : MilestoneReachable (MilestoneData.new idx cb)
  | set {md : MilestoneData} (p : MilestonePayload) :
      MilestoneReachable md → MilestoneReachable (md.set_milestone p)
  | add {md : MilestoneData} (fm : FullMessage) :
      MilestoneReachable md → MilestoneReachable (md.add_full_message fm)
  | remove {md : MilestoneData} (id : MessageId) :
      MilestoneReachable md → MilestoneReachable (md.remove_from_pending id)

/-- Modelled from the spec: the completion predicate of a Checkpoint Data
Aggregate ("Completion predicate: `checkpoint_payload` is present AND
`pending` is empty").  The combination lives in the aggregate's consumers
(solidifier), which are not part of the four embedded source files; only its
two ingredients (`milestone_exist`, the `pending` map) are in
`chronicle-broker/src/types.rs`. -/
def MilestoneData.is_complete (md : MilestoneData) : Bool :=
  md.milestone_exist && md.pending.isEmpty

/-- The `u128` modulus. -/
def U128_MOD : Nat := 2 ^ 128

/-- `Analytics` (three `u128` counters). -/
structure Analytics where
  transaction_count : Nat
  message_count : Nat
  transferred_tokens : Nat
deriving DecidableEq, Repr

/-- All three counters fit in `u128`. -/
def Analytics.wf (a : Analytics) : Prop :=
  a.transaction_count < U128_MOD ∧ a.message_count < U128_MOD ∧ a.transferred_tokens < U128_MOD

instance (a : Analytics) : Decidable a.wf := by
  unfold Analytics.wf
  infer_instance

/-- `impl Add for Analytics`: component-wise `u128` addition. -/
def Analytics.add (a other : Analytics) : Analytics :=
  { transaction_count := (a.transaction_count + other.transaction_count) % U128_MOD
    message_count := (a.message_count + other.message_count) % U128_MOD
    transferred_tokens := (a.transferred_tokens + other.transferred_tokens) % U128_MOD }

/-- The all-zero `Analytics` value. -/
def Analytics.zero : Analytics :=
  { transaction_count := 0, message_count := 0, transferred_tokens := 0 }

/-- The inner `for output in regular_essence.outputs()` loop of
`get_analytics`: accumulate the `amount` of the two signature-locked output
kinds into `tt`, and fail (`unreachable!()`) on any other kind. -/
def sum_outputs (tt : Nat) : List Output → Option Nat
  | [] => some tt
  | Output.signatureLockedSingle amount :: rest => sum_outputs ((tt + amount) % U128_MOD) rest
  | Output.signatureLockedDustAllowance amount :: rest => sum_outputs ((tt + amount) % U128_MOD) rest
  | Output.treasury _ :: _ => none

/-- The message iteration of `MilestoneData::get_analytics` over the three
accumulators; `none` models reaching an `unreachable!()` assertion. -/
def get_analytics_acc (tc mc tt : Nat) : List (MessageId × FullMessage) → Option Analytics
  | [] => some { transaction_count := tc, message_count := mc, transferred_tokens := tt }
  | (_, full_message) :: rest =>
    let mc := (mc + 1) % U128_MOD
    match full_message.message.payload with
    | some (Payload.transaction essence) =>
      let tc := (tc + 1) % U128_MOD
      match essence with
      | Essence.regular outs =>
        match sum_outputs tt outs with
        | some tt => get_analytics_acc tc mc tt rest
        | none => none
      | Essence.nonRegular => none
    | _ => get_analytics_acc tc mc tt rest

/-- `MilestoneData::get_analytics`. -/
def MilestoneData.get_analytics (md : MilestoneData) : Option Analytics :=
  get_analytics_acc 0 0 0 md.messages

/-- A message counts as a transaction when its payload is transaction-kind. -/
def has_transaction (fm : FullMessage) : Bool :=
  match fm.message.payload with
  | some (Payload.transaction _) => true
  | _ => false

/-- An output is one of the two kinds `get_analytics` recognizes. -/
def output_ok : Output → Bool
  | Output.signatureLockedSingle _ => true
  | Output.signatureLockedDustAllowance _ => true
  | Output.treasury _ => false

/-- The `amount` field of an output (0 for the unrecognized kind). -/
def output_amount : Output → Nat
  | Output.signatureLockedSingle amount => amount
  | Output.signatureLockedDustAllowance amount => amount
  | Output.treasury _ => 0

/-- The ledger-format precondition of `get_analytics`: every transaction
payload has a `Regular` essence whose outputs all are one of the two
signature-locked kinds. -/
def ledger_format_ok (fm : FullMessage) : Bool :=
  match fm.message.payload with
  | some (Payload.transaction essence) =>
    match essence with
    | Essence.regular outs => outs.all output_ok
    | Essence.nonRegular => false
  | _ => true

/-- The `amount` sum of one message's transaction outputs (0 for messages
without a transaction payload or with an unrecognized shape). -/
def message_tokens (fm : FullMessage) : Nat :=
  match fm.message.payload with
  | some (Payload.transaction (Essence.regular outs)) => (outs.map output_amount).sum
  | _ => 0

/-! ## One-for-one supervision loop (`launcher.rs`) -/

/-- The launcher `Event` enum.  The shutdown/dashboard handles of
`RegisterApp`/`RegisterDashboard` are opaque trait objects in the source;
only a name's presence in the registry maps is observable, so the events
carry just the names. -/
inductive Event where
  | StartApp (app_name : String)
  | ShutdownApp (app_name : String)
  | AknShutdown (app_name : String)
  | RegisterApp (app_name : String)
  | RegisterDashboard (dashboard_name : String)
  | AppsStatus (dashboard_name : String)
  | Break
deriving DecidableEq, Repr

/-- Calls the control loop makes on the outside world: `self.start_app(..)`,
`dashboard_tx.started_app(..)`, `dashboard_tx.shutdown_app(..)`, and
`shutdown_tx.shutdown()`. -/
inductive Action where
  | start_app (app_name : String)
  | notify_started (dashboard_name app_name : String)
  | notify_shutdown (dashboard_name app_name : String)
  | shutdown_handle (app_name : String)
deriving DecidableEq, Repr

/-- The registry state of `Apps`: the key sets of the two `HashMap`s
(`dashboards`, `apps`); the mapped handles are opaque. -/
structure AppsState where
  dashboards : List String
  apps : List String
deriving DecidableEq, Repr

/-- `HashMap::insert` on a key set: a no-op on the key set when the key is
already present (only its handle is replaced). -/
def key_insert (m : List String) (k : String) : List String :=
  if k ∈ m then m else m ++ [k]

/-- `HashMap::remove` on a key set. -/
def key_remove (m : List String) (k : String) : List String :=
  m.filter (fun x => x ≠ k)

/-- One arm of the `match event` in `Apps::one_for_one`, for the events the
loop handles without leaving it (`Break` exits and `AppsStatus` hits
`todo!()`; both are handled by `one_for_one` below and mapped to the
identity here). -/
def one_for_one_step (s : AppsState) : Event → AppsState × List Action
  | Event.RegisterDashboard dashboard_name =>
    ({ s with dashboards := key_insert s.dashboards dashboard_name }, [])
  | Event.RegisterApp app_name =>
    ({ s with apps := key_insert s.apps app_name },
      s.dashboards.map (fun d => Action.notify_started d app_name))
  | Event.StartApp app_name =>
    (s, Action.start_app app_name :: s.dashboards.map (fun d => Action.notify_started d app_name))
  | Event.ShutdownApp app_name =>
    if app_name ∈ s.apps then
      ({ s with apps := key_remove s.apps app_name }, [Action.shutdown_handle app_name])
    else
      (s, [])
  | Event.AknShutdown app_name =>
    if app_name ∈ s.apps then
      ({ s with apps := key_remove s.apps app_name },
        Action.start_app app_name :: s.dashboards.map (fun d => Action.notify_started d app_name))
    else
      (s, s.dashboards.map (fun d => Action.notify_shutdown d app_name))
  | Event.AppsStatus _ => (s, [])
  | Event.Break => (s, [])

/-- `Apps::one_for_one`: process the queued events in order; `Break` exits
the loop (later events are never processed) and `AppsStatus` hits `todo!()`
(a panic, modelled as `none`).  Returns the final registry state and the
emitted calls. -/
def one_for_one : AppsState → List Event → Option (AppsState × List Action)
  | s, [] => some (s, [])
  | s, Event.Break :: _ => some (s, [])
  | _, Event.AppsStatus _ :: _ => none
  | s, e :: rest =>
    let step := one_for_one_step s e
    match one_for_one step.1 rest with
    | some (s2, out2) => some (s2, step.2 ++ out2)
    | none => none

/-! ## Theorems -/

/-- C8: `Analytics` addition (`impl Add for Analytics`) is commutative and
associative over all analytics values, and the all-zero analytics value is a
two-sided identity on `u128`-valued analytics. -/
theorem analytics_add_comm_monoid (x y z : Analytics) (hx : x.wf) :
    x.add y = y.add x ∧ (x.add y).add z = x.add (y.add z) ∧
      Analytics.zero.add x = x ∧ x.add Analytics.zero = x := by
  obtain ⟨h1, h2, h3⟩ := hx
  refine ⟨?_, ?_, ?_, ?_⟩
  · simp [Analytics.add, Nat.add_comm]
  · simp [Analytics.add, Nat.mod_add_mod, Nat.add_mod_mod, Nat.add_assoc]
  · simp [Analytics.add, Analytics.zero, Nat.mod_eq_of_lt, h1, h2, h3]
  · simp [Analytics.add, Analytics.zero, Nat.mod_eq_of_lt, h1, h2, h3]

/-- Witness for `analytics_add_comm_monoid` at concrete analytics values. -/
theorem analytics_add_comm_monoid_witness :
    Analytics.add ⟨1, 2, 3⟩ ⟨4, 5, 6⟩ = Analytics.add ⟨4, 5, 6⟩ ⟨1, 2, 3⟩ ∧
      (Analytics.add ⟨1, 2, 3⟩ ⟨4, 5, 6⟩).add ⟨7, 8, 9⟩ =
        Analytics.add ⟨1, 2, 3⟩ (Analytics.add ⟨4, 5, 6⟩ ⟨7, 8, 9⟩) ∧
      Analytics.zero.add ⟨1, 2, 3⟩ = ⟨1, 2, 3⟩ ∧
      Analytics.add ⟨1, 2, 3⟩ Analytics.zero = ⟨1, 2, 3⟩ :=
  analytics_add_comm_monoid ⟨1, 2, 3⟩ ⟨4, 5, 6⟩ ⟨7, 8, 9⟩ (by decide)

/-- C6: the aggregate reports complete exactly when the milestone payload is
present and the pending set is empty; a fresh aggregate reports incomplete,
setting the payload while pending entries remain still reports incomplete,
and removing the last pending entry after the payload is set reports
complete. -/
theorem milestone_is_complete_spec (md : MilestoneData) (idx : Nat) (cb : CreatedBy)
    (p : MilestonePayload) :
    (md.is_complete = true ↔ md.milestone_exist = true ∧ md.pending = []) ∧
    (MilestoneData.new idx cb).is_complete = false ∧
    (md.pending ≠ [] → (md.set_milestone p).is_complete = false) ∧
    (∀ id : MessageId, md.pending = [id] →
      ((md.set_milestone p).remove_from_pending id).is_complete = true) := by
  refine ⟨?_, rfl, ?_, ?_⟩
  · simp [MilestoneData.is_complete, List.isEmpty_iff]
  · intro hne
    have : md.pending.isEmpty = false := by
      cases hmd : md.pending with
      | nil => exact absurd hmd hne
      | cons a l => rfl
    simp [MilestoneData.is_complete, MilestoneData.set_milestone, MilestoneData.milestone_exist, this]
  · intro id hpend
    simp [MilestoneData.is_complete, MilestoneData.set_milestone, MilestoneData.milestone_exist,
      MilestoneData.remove_from_pending, hpend]

/-- Witness for `milestone_is_complete_spec`: a one-pending aggregate whose
payload is set and whose last pending entry is removed reports complete. -/
theorem milestone_is_complete_spec_witness :
    (((⟨0, none, [], [5], CreatedBy.Incoming⟩ : MilestoneData).set_milestone
        ⟨0⟩).remove_from_pending 5).is_complete = true :=
  (milestone_is_complete_spec ⟨0, none, [], [5], CreatedBy.Incoming⟩ 0 CreatedBy.Incoming
    ⟨0⟩).2.2.2 5 rfl

/-- C2 is refuted at a tie state: with the lowest gap `[5, 6)` and the lowest
unlogged range `[5, 7)` sharing `start = 5`, `take_lowest_gap_or_unlogged`
returns and removes the unlogged range, not the gap (which stays queued). -/
theorem take_lowest_tie_returns_unlogged :
    (SyncData.take_lowest_gap_or_unlogged ⟨[], [⟨5, 7⟩], [⟨5, 6⟩]⟩).1 = some ⟨5, 7⟩ ∧
    (SyncData.take_lowest_gap_or_unlogged ⟨[], [⟨5, 7⟩], [⟨5, 6⟩]⟩).2 = ⟨[], [], [⟨5, 6⟩]⟩ ∧
    some (⟨5, 7⟩ : Range32) ≠ some ⟨5, 6⟩ := by
  decide

/-- C2 (amended): with both sequences non-empty, `take_lowest_gap_or_unlogged`
removes and returns the gap exactly when its start is strictly smaller; when
the unlogged start is smaller or the two starts are equal, the unlogged range
is the one removed and returned. -/
theorem take_lowest_gap_or_unlogged_spec (sd : SyncData) (g u : Range32)
    (hg : sd.gaps.getLast? = some g) (hu : sd.synced_but_unlogged.getLast? = some u) :
    (g.start < u.start →
      sd.take_lowest_gap_or_unlogged = (some g, { sd with gaps := sd.gaps.dropLast })) ∧
    (u.start ≤ g.start →
      sd.take_lowest_gap_or_unlogged =
        (some u, { sd with synced_but_unlogged := sd.synced_but_unlogged.dropLast })) := by
  unfold SyncData.take_lowest_gap_or_unlogged
  simp only [hg, hu]
  constructor
  · intro h
    rw [if_pos h]
  · intro h
    rw [if_neg (Nat.not_lt.mpr h)]

/-- Witness for `take_lowest_gap_or_unlogged_spec` at the tie state. -/
theorem take_lowest_gap_or_unlogged_spec_witness :
    SyncData.take_lowest_gap_or_unlogged ⟨[], [⟨5, 7⟩], [⟨5, 6⟩]⟩ =
      (some ⟨5, 7⟩, ⟨[], [], [⟨5, 6⟩]⟩) :=
  (take_lowest_gap_or_unlogged_spec ⟨[], [⟨5, 7⟩], [⟨5, 6⟩]⟩ ⟨5, 6⟩ ⟨5, 7⟩ rfl rfl).2
    (by decide)

/-- C10: the `u32` computation `from - 1` in `try_fetch` underflows for
`from = 0` (both the empty-stream branch and the final-remainder branch
evaluate it, so the construction aborts and produces no sync data), while
every `from ≥ 1` query succeeds on every record stream. -/
theorem try_fetch_from_bound (records : List SyncRecord) (f t : Nat) (hf : 1 ≤ f) :
    SyncData.try_fetch 0 t records = none ∧ (SyncData.try_fetch f t records).isSome = true := by
  have hne : f ≠ 0 := by omega
  constructor
  · cases records <;> simp [SyncData.try_fetch]
  · cases records <;> simp [SyncData.try_fetch, hne]

/-- Witness for `try_fetch_from_bound` at `from = 1`, `to = 3`. -/
theorem try_fetch_from_bound_witness :
    SyncData.try_fetch 0 3 [] = none ∧ (SyncData.try_fetch 1 3 []).isSome = true :=
  try_fetch_from_bound [] 1 3 (by decide)

/-- Every aggregate reachable by the embedded mutating operations has an
empty pending set: none of `set_milestone`, `add_full_message`,
`remove_from_pending` inserts into `pending`. -/
theorem milestone_reachable_pending_nil {md : MilestoneData} (h : MilestoneReachable md) :
    md.pending = [] := by
  induction h with
  | new idx cb => rfl
  | set p _ ih => simpa [MilestoneData.set_milestone] using ih
  | add fm _ ih => simpa [MilestoneData.add_full_message] using ih
  | remove id _ ih => simp [MilestoneData.remove_from_pending, ih]

/-- C7: on every aggregate reachable by `set_milestone`, `add_full_message`
and `remove_from_pending` from a fresh aggregate, a message identifier lies
in at most one of the `messages` key set and the `pending` set; in
particular, after any further `add_full_message` no identifier lies in both. -/
theorem milestone_messages_pending_disjoint (md : MilestoneData)
    (h : MilestoneReachable md) :
    (∀ id : MessageId, ¬(id ∈ md.messages.map Prod.fst ∧ id ∈ md.pending)) ∧
    (∀ fm : FullMessage, ∀ id : MessageId,
      ¬(id ∈ (md.add_full_message fm).messages.map Prod.fst ∧
        id ∈ (md.add_full_message fm).pending)) := by
  have hp := milestone_reachable_pending_nil h
  constructor
  · intro id hid
    rw [hp] at hid
    exact absurd hid.2 (List.not_mem_nil id)
  · intro fm id hid
    have hp2 : (md.add_full_message fm).pending = [] := by
      simp [MilestoneData.add_full_message, hp]
    rw [hp2] at hid
    exact absurd hid.2 (List.not_mem_nil id)

/-- Witness for `milestone_messages_pending_disjoint` on a fresh aggregate. -/
theorem milestone_messages_pending_disjoint_witness :
    ¬((0 : MessageId) ∈ (MilestoneData.new 0 CreatedBy.Incoming).messages.map Prod.fst ∧
      (0 : MessageId) ∈ (MilestoneData.new 0 CreatedBy.Incoming).pending) :=
  (milestone_messages_pending_disjoint (MilestoneData.new 0 CreatedBy.Incoming)
    (MilestoneReachable.new 0 CreatedBy.Incoming)).1 0

/-- Unfolding of the control loop on an ordinary event (neither `Break` nor
`AppsStatus`). -/
theorem one_for_one_cons (s : AppsState) (e : Event) (rest : List Event)
    (hb : e ≠ Event.Break) (ha : ∀ n, e ≠ Event.AppsStatus n) :
    one_for_one s (e :: rest) =
      (match one_for_one (one_for_one_step s e).1 rest with
        | some (s2, out2) => some (s2, (one_for_one_step s e).2 ++ out2)
        | none => none) := by
  cases e <;> first | rfl | exact absurd rfl hb | exact absurd rfl (ha _)

/-- A single loop arm other than `ShutdownApp x` and `AknShutdown x` never
drops `x` from the registered apps. -/
theorem one_for_one_step_mem {s : AppsState} {x : String} (e : Event)
    (hx : x ∈ s.apps) (h1 : e ≠ Event.ShutdownApp x) (h2 : e ≠ Event.AknShutdown x) :
    x ∈ (one_for_one_step s e).1.apps := by
  cases e with
  | StartApp n => exact hx
  | RegisterDashboard n => exact hx
  | AppsStatus n => exact hx
  | Break => exact hx
  | RegisterApp n =>
    simp only [one_for_one_step, key_insert]
    split
    · exact hx
    · exact List.mem_append_left _ hx
  | ShutdownApp n =>
    have hn : n ≠ x := by
      intro hnx
      exact h1 (by rw [hnx])
    simp only [one_for_one_step]
    split
    · simp only [key_remove, List.mem_filter]
      exact ⟨hx, by simpa using hn.symm⟩
    · exact hx
  | AknShutdown n =>
    have hn : n ≠ x := by
      intro hnx
      exact h2 (by rw [hnx])
    simp only [one_for_one_step]
    split
    · simp only [key_remove, List.mem_filter]
      exact ⟨hx, by simpa using hn.symm⟩
    · exact hx

/-- Running the loop over events containing neither `ShutdownApp x` nor
`AknShutdown x` keeps `x` registered. -/
theorem one_for_one_mem {x : String} :
    ∀ (evs : List Event) (s s' : AppsState) (acts : List Action),
      x ∈ s.apps → Event.ShutdownApp x ∉ evs → Event.AknShutdown x ∉ evs →
      one_for_one s evs = some (s', acts) → x ∈ s'.apps := by
  intro evs
  induction evs with
  | nil =>
    intro s s' acts hx _ _ hrun
    simp only [one_for_one, Option.some.injEq, Prod.mk.injEq] at hrun
    rw [← hrun.1]
    exact hx
  | cons e rest ih =>
    intro s s' acts hx hsd hakn hrun
    have hne1 : e ≠ Event.ShutdownApp x := by
      intro hh
      rw [hh] at hsd
      exact hsd (List.mem_cons_self _ _)
    have hne2 : e ≠ Event.AknShutdown x := by
      intro hh
      rw [hh] at hakn
      exact hakn (List.mem_cons_self _ _)
    have hsd' : Event.ShutdownApp x ∉ rest := fun hm => hsd (List.mem_cons_of_mem _ hm)
    have hakn' : Event.AknShutdown x ∉ rest := fun hm => hakn (List.mem_cons_of_mem _ hm)
    by_cases hb : e = Event.Break
    · subst hb
      simp only [one_for_one, Option.some.injEq, Prod.mk.injEq] at hrun
      rw [← hrun.1]
      exact hx
    · by_cases ha : ∃ n, e = Event.AppsStatus n
      · obtain ⟨n, rfl⟩ := ha
        simp only [one_for_one] at hrun
        exact absurd hrun (by simp)
      · rw [one_for_one_cons s e rest hb (fun n hh => ha ⟨n, hh⟩)] at hrun
        cases hrec : one_for_one (one_for_one_step s e).1 rest with
        | none =>
          rw [hrec] at hrun
          simp at hrun
        | some pr =>
          obtain ⟨s2, out2⟩ := pr
          rw [hrec] at hrun
          simp only [Option.some.injEq, Prod.mk.injEq] at hrun
          have hx2 : x ∈ (one_for_one_step s e).1.apps := one_for_one_step_mem e hx hne1 hne2
          have hx3 := ih (one_for_one_step s e).1 s2 out2 hx2 hsd' hakn' hrec
          rw [← hrun.1]
          exact hx3

/-- C3 is refuted by a double `AknShutdown`: after `RegisterApp "x"` and one
`AknShutdown "x"` (no `ShutdownApp "x"` anywhere in the sequence), the handle
is gone, so processing a further `AknShutdown "x"` - which still has a
preceding `RegisterApp "x"` with no intervening `ShutdownApp "x"` - emits a
shutdown notification to the dashboard and no start call. -/
theorem one_for_one_no_restart_counterexample :
    one_for_one ⟨["d"], []⟩ [Event.RegisterApp "x", Event.AknShutdown "x"] =
      some (⟨["d"], []⟩, [Action.notify_started "d" "x", Action.start_app "x",
        Action.notify_started "d" "x"]) ∧
    one_for_one_step ⟨["d"], []⟩ (Event.AknShutdown "x") =
      (⟨["d"], []⟩, [Action.notify_shutdown "d" "x"]) ∧
    Action.start_app "x" ∉ [Action.notify_shutdown "d" "x"] := by
  decide

/-- C3 (amended): after `RegisterApp x` and any further events containing
neither `ShutdownApp x` nor `AknShutdown x`, processing `AknShutdown x`
removes the handle, invokes the start call for `x` again and notifies every
registered dashboard of a start; and at any state with the handle absent
(after a `ShutdownApp x`), processing `AknShutdown x` invokes no start call
and notifies every registered dashboard of a shutdown. -/
theorem one_for_one_restart_policy (x : String) (s0 s1 : AppsState)
    (mid : List Event) (acts : List Action)
    (hsd : Event.ShutdownApp x ∉ mid) (hakn : Event.AknShutdown x ∉ mid)
    (hrun : one_for_one (one_for_one_step s0 (Event.RegisterApp x)).1 mid = some (s1, acts)) :
    one_for_one_step s1 (Event.AknShutdown x) =
      ({ s1 with apps := key_remove s1.apps x },
        Action.start_app x :: s1.dashboards.map (fun d => Action.notify_started d x)) ∧
    (∀ t : AppsState, x ∉ t.apps →
      one_for_one_step t (Event.AknShutdown x) =
        (t, t.dashboards.map (fun d => Action.notify_shutdown d x))) := by
  have hx0 : x ∈ (one_for_one_step s0 (Event.RegisterApp x)).1.apps := by
    simp only [one_for_one_step, key_insert]
    split
    · assumption
    · simp
  have hx1 : x ∈ s1.apps := one_for_one_mem mid _ _ _ hx0 hsd hakn hrun
  constructor
  · simp [one_for_one_step, hx1]
  · intro t ht
    simp [one_for_one_step, ht]

/-- Witness for `one_for_one_restart_policy`: one registered dashboard, empty
intervening event list. -/
theorem one_for_one_restart_policy_witness :
    one_for_one_step ⟨["d"], ["x"]⟩ (Event.AknShutdown "x") =
      (⟨["d"], []⟩, [Action.start_app "x", Action.notify_started "d" "x"]) ∧
    one_for_one_step ⟨["d"], []⟩ (Event.AknShutdown "x") =
      (⟨["d"], []⟩, [Action.notify_shutdown "d" "x"]) := by
  have h := one_for_one_restart_policy "x" ⟨["d"], []⟩ ⟨["d"], ["x"]⟩ [] []
    (by simp) (by simp) rfl
  exact ⟨h.1, h.2 ⟨["d"], []⟩ (by simp)⟩

/-- On a list of recognized outputs the inner accumulation succeeds and adds
the amounts modulo `2 ^ 128`. -/
theorem sum_outputs_ok (outs : List Output) :
    ∀ tt : Nat, outs.all output_ok = true → tt < U128_MOD →
      sum_outputs tt outs = some ((tt + (outs.map output_amount).sum) % U128_MOD) := by
  induction outs with
  | nil =>
    intro tt _ htt
    simp [sum_outputs, Nat.mod_eq_of_lt htt]
  | cons o rest ih =>
    intro tt hok htt
    simp only [List.all_cons, Bool.and_eq_true] at hok
    have hmod : (tt + output_amount o) % U128_MOD < U128_MOD :=
      Nat.mod_lt _ (by norm_num [U128_MOD])
    cases o with
    | signatureLockedSingle amount =>
      rw [show sum_outputs tt (Output.signatureLockedSingle amount :: rest) =
        sum_outputs ((tt + amount) % U128_MOD) rest from rfl]
      rw [ih _ hok.2 (by simpa [output_amount] using hmod)]
      simp [output_amount, Nat.mod_add_mod, Nat.add_assoc]
    | signatureLockedDustAllowance amount =>
      rw [show sum_outputs tt (Output.signatureLockedDustAllowance amount :: rest) =
        sum_outputs ((tt + amount) % U128_MOD) rest from rfl]
      rw [ih _ hok.2 (by simpa [output_amount] using hmod)]
      simp [output_amount, Nat.mod_add_mod, Nat.add_assoc]
    | treasury amount =>
      simp [output_ok] at hok

/-- A treasury output anywhere in the list makes the inner accumulation hit
the `unreachable!()` arm. -/
theorem sum_outputs_bad (outs : List Output) :
    ∀ tt : Nat, (∃ o ∈ outs, output_ok o = false) → sum_outputs tt outs = none := by
  induction outs with
  | nil =>
    intro tt h
    obtain ⟨o, ho, _⟩ := h
    exact absurd ho (List.not_mem_nil o)
  | cons o rest ih =>
    intro tt h
    cases o with
    | signatureLockedSingle amount =>
      obtain ⟨o', ho', hbad⟩ := h
      rcases List.mem_cons.mp ho' with h' | h'
      · rw [h'] at hbad
        simp [output_ok] at hbad
      · exact ih _ ⟨o', h', hbad⟩
    | signatureLockedDustAllowance amount =>
      obtain ⟨o', ho', hbad⟩ := h
      rcases List.mem_cons.mp ho' with h' | h'
      · rw [h'] at hbad
        simp [output_ok] at hbad
      · exact ih _ ⟨o', h', hbad⟩
    | treasury amount => rfl

/-- The accumulator invariant of the `get_analytics` message loop on a
well-formatted message list. -/
theorem get_analytics_acc_spec (l : List (MessageId × FullMessage)) :
    ∀ tc mc tt : Nat, (∀ p ∈ l, ledger_format_ok p.2 = true) →
      tc < U128_MOD → mc < U128_MOD → tt < U128_MOD →
      get_analytics_acc tc mc tt l = some
        ⟨(tc + l.countP (fun p => has_transaction p.2)) % U128_MOD,
          (mc + l.length) % U128_MOD,
          (tt + (l.map (fun p => message_tokens p.2)).sum) % U128_MOD⟩ := by
  induction l with
  | nil =>
    intro tc mc tt _ htc hmc htt
    simp [get_analytics_acc, Nat.mod_eq_of_lt, htc, hmc, htt]
  | cons p rest ih =>
    intro tc mc tt hfmt htc hmc htt
    obtain ⟨k, fm⟩ := p
    have hfm : ledger_format_ok fm = true := hfmt (k, fm) (List.mem_cons_self _ _)
    have hrest : ∀ q ∈ rest, ledger_format_ok q.2 = true :=
      fun q hq => hfmt q (List.mem_cons_of_mem _ hq)
    have hMpos : 0 < U128_MOD := by norm_num [U128_MOD]
    rcases hpay : fm.message.payload with _ | pl
    · rw [show get_analytics_acc tc mc tt ((k, fm) :: rest) =
        get_analytics_acc tc ((mc + 1) % U128_MOD) tt rest by
          simp [get_analytics_acc, hpay]]
      rw [ih tc _ tt hrest htc (Nat.mod_lt _ hMpos) htt]
      simp [List.countP_cons, has_transaction, message_tokens, hpay, Nat.mod_add_mod,
        Nat.add_assoc, Nat.add_comm, Nat.add_left_comm]
    · cases pl with
      | other =>
        rw [show get_analytics_acc tc mc tt ((k, fm) :: rest) =
          get_analytics_acc tc ((mc + 1) % U128_MOD) tt rest by
            simp [get_analytics_acc, hpay]]
        rw [ih tc _ tt hrest htc (Nat.mod_lt _ hMpos) htt]
        simp [List.countP_cons, has_transaction, message_tokens, hpay, Nat.mod_add_mod,
          Nat.add_assoc, Nat.add_comm, Nat.add_left_comm]
      | transaction essence =>
        cases essence with
        | nonRegular =>
          rw [ledger_format_ok, hpay] at hfm
          simp at hfm
        | regular outs =>
          have houts : outs.all output_ok = true := by
            rw [ledger_format_ok, hpay] at hfm
            simpa using hfm
          rw [show get_analytics_acc tc mc tt ((k, fm) :: rest) =
            (match sum_outputs tt outs with
              | some tt2 => get_analytics_acc ((tc + 1) % U128_MOD) ((mc + 1) % U128_MOD) tt2 rest
              | none => none) by
              simp [get_analytics_acc, hpay]]
          rw [sum_outputs_ok outs tt houts htt]
          simp only []
          rw [ih _ _ _ hrest (Nat.mod_lt _ hMpos) (Nat.mod_lt _ hMpos) (Nat.mod_lt _ hMpos)]
          simp [List.countP_cons, has_transaction, message_tokens, hpay, Nat.mod_add_mod,
            Nat.add_assoc, Nat.add_comm, Nat.add_left_comm]

/-- A single badly-shaped message anywhere makes the loop fail instead of
skipping it. -/
theorem get_analytics_acc_bad (l : List (MessageId × FullMessage)) :
    ∀ tc mc tt : Nat, (∃ p ∈ l, ledger_format_ok p.2 = false) →
      get_analytics_acc tc mc tt l = none := by
  induction l with
  | nil =>
    intro tc mc tt h
    obtain ⟨p, hp, _⟩ := h
    exact absurd hp (List.not_mem_nil p)
  | cons p rest ih =>
    intro tc mc tt h
    obtain ⟨k, fm⟩ := p
    obtain ⟨q, hq, hbad⟩ := h
    rcases List.mem_cons.mp hq with h' | h'
    · rw [h'] at hbad
      rcases hpay : fm.message.payload with _ | pl
      · rw [ledger_format_ok, hpay] at hbad
        simp at hbad
      · cases pl with
        | other =>
          rw [ledger_format_ok, hpay] at hbad
          simp at hbad
        | transaction essence =>
          cases essence with
          | nonRegular => simp [get_analytics_acc, hpay]
          | regular outs =>
            have houts : ∃ o ∈ outs, output_ok o = false := by
              rw [ledger_format_ok, hpay] at hbad
              simpa using hbad
            rw [show get_analytics_acc tc mc tt ((k, fm) :: rest) =
              (match sum_outputs tt outs with
                | some tt2 => get_analytics_acc ((tc + 1) % U128_MOD) ((mc + 1) % U128_MOD) tt2 rest
                | none => none) by
                simp [get_analytics_acc, hpay]]
            rw [sum_outputs_bad outs tt houts]
    · rcases hpay : fm.message.payload with _ | pl
      · rw [show get_analytics_acc tc mc tt ((k, fm) :: rest) =
          get_analytics_acc tc ((mc + 1) % U128_MOD) tt rest by
            simp [get_analytics_acc, hpay]]
        exact ih _ _ _ ⟨q, h', hbad⟩
      · cases pl with
        | other =>
          rw [show get_analytics_acc tc mc tt ((k, fm) :: rest) =
            get_analytics_acc tc ((mc + 1) % U128_MOD) tt rest by
              simp [get_analytics_acc, hpay]]
          exact ih _ _ _ ⟨q, h', hbad⟩
        | transaction essence =>
          cases essence with
          | nonRegular => simp [get_analytics_acc, hpay]
          | regular outs =>
            rw [show get_analytics_acc tc mc tt ((k, fm) :: rest) =
              (match sum_outputs tt outs with
                | some tt2 => get_analytics_acc ((tc + 1) % U128_MOD) ((mc + 1) % U128_MOD) tt2 rest
                | none => none) by
                simp [get_analytics_acc, hpay]]
            cases hso : sum_outputs tt outs with
            | none => rfl
            | some tt2 =>
              simp only []
              exact ih _ _ _ ⟨q, h', hbad⟩

/-- C9: on messages satisfying the ledger-format precondition,
`get_analytics` reaches no assertion and returns the message count, the
transaction count and the summed output amounts; a message outside the
recognized shapes makes it fail (assertion) instead of being skipped. -/
theorem get_analytics_spec (md : MilestoneData)
    (hfmt : ∀ p ∈ md.messages, ledger_format_ok p.2 = true)
    (htc : md.messages.countP (fun p => has_transaction p.2) < U128_MOD)
    (hmc : md.messages.length < U128_MOD)
    (htt : (md.messages.map (fun p => message_tokens p.2)).sum < U128_MOD) :
    md.get_analytics = some
      ⟨md.messages.countP (fun p => has_transaction p.2), md.messages.length,
        (md.messages.map (fun p => message_tokens p.2)).sum⟩ ∧
    (∀ md' : MilestoneData, (∃ p ∈ md'.messages, ledger_format_ok p.2 = false) →
      md'.get_analytics = none) := by
  constructor
  · have hMpos : 0 < U128_MOD := by norm_num [U128_MOD]
    rw [MilestoneData.get_analytics,
      get_analytics_acc_spec md.messages 0 0 0 hfmt hMpos hMpos hMpos]
    simp [Nat.mod_eq_of_lt, htc, hmc, htt]
  · intro md' h
    exact get_analytics_acc_bad md'.messages 0 0 0 h

/-- Witness for `get_analytics_spec`: one transaction message with two
recognized outputs. -/
theorem get_analytics_spec_witness :
    (MilestoneData.get_analytics
      ⟨9, none,
        [(1, ⟨⟨some (Payload.transaction (Essence.regular
          [Output.signatureLockedSingle 7, Output.signatureLockedDustAllowance 5]))⟩, ⟨1, none⟩⟩)],
        [], CreatedBy.Incoming⟩) = some ⟨1, 1, 12⟩ :=
  (get_analytics_spec
    ⟨9, none,
      [(1, ⟨⟨some (Payload.transaction (Essence.regular
        [Output.signatureLockedSingle 7, Output.signatureLockedDustAllowance 5]))⟩, ⟨1, none⟩⟩)],
      [], CreatedBy.Incoming⟩
    (by decide) (by decide) (by decide) (by decide)).1

/-- Appending one range adds its indicator to the containment count. -/
theorem cnt_append (i : Nat) (rs : List Range32) (r : Range32) :
    cnt i (rs ++ [r]) = cnt i rs + (if r.start ≤ i ∧ i < r.stop then 1 else 0) := by
  simp [cnt, List.countP_append, List.countP_cons]

/-- `proceed` adds exactly the index `milestone_index` to the covered
multiset, for sequences of nonempty ranges. -/
theorem cnt_proceed (rs : List Range32) (m : Nat) (check : Bool) (i : Nat)
    (hwf : ∀ r ∈ rs, r.start < r.stop) :
    cnt i (SyncData.proceed rs m check) = cnt i rs + (if i = m then 1 else 0) := by
  simp only [SyncData.proceed]
  split
  · rename_i last hl
    have hrs : rs.dropLast ++ [last] = rs := List.dropLast_append_getLast? last hl
    have hlwf : last.start < last.stop := hwf last (by rw [← hrs]; simp)
    split
    · rename_i hcond
      obtain ⟨hc1, hc2⟩ := hcond
      rw [cnt_append]
      conv_rhs => rw [← hrs, cnt_append]
      have heq : (if (⟨m, last.stop⟩ : Range32).start ≤ i ∧ i < (⟨m, last.stop⟩ : Range32).stop
            then 1 else 0) =
          (if last.start ≤ i ∧ i < last.stop then 1 else 0) + (if i = m then 1 else 0) := by
        simp only []
        split_ifs <;> omega
      rw [heq]
      omega
    · rw [cnt_append]
      have heq : (if (⟨m, m + 1⟩ : Range32).start ≤ i ∧ i < (⟨m, m + 1⟩ : Range32).stop
            then 1 else 0) = (if i = m then 1 else 0) := by
        simp only []
        split_ifs <;> omega
      rw [heq]
  · rename_i hl
    have hnil : rs = [] := List.getLast?_eq_none_iff.mp hl
    subst hnil
    have heq : cnt i [⟨m, m + 1⟩] = if i = m then 1 else 0 := by
      simp only [cnt, List.countP_cons, List.countP_nil, decide_eq_true_eq]
      split_ifs <;> omega
    rw [List.nil_append, heq]
    simp [cnt]

/-- `process_gaps` adds exactly the indices of `[milestone_index + 1, pre_ms)`
to the gap count and leaves the other two sequences unchanged. -/
theorem cnt_process_gaps (sd : SyncData) (p m i : Nat) :
    cnt i (sd.process_gaps p m).gaps =
      cnt i sd.gaps + (if m + 1 ≤ i ∧ i < p then 1 else 0) ∧
    (sd.process_gaps p m).completed = sd.completed ∧
    (sd.process_gaps p m).synced_but_unlogged = sd.synced_but_unlogged := by
  simp only [SyncData.process_gaps]
  split
  · refine ⟨?_, rfl, rfl⟩
    rw [cnt_append]
  · rename_i hcond
    have hmp : m + 1 = p := by omega
    refine ⟨?_, rfl, rfl⟩
    have : (if m + 1 ≤ i ∧ i < p then 1 else 0) = 0 := by
      split_ifs <;> omega
    omega

/-- `proceed` preserves nonemptiness, chain-disjointness and the lower bound
on starts (weakened from `p` to the processed index `m < p`). -/
theorem proceed_ordering (rs : List Range32) (m p : Nat) (check : Bool)
    (hwf : ∀ r ∈ rs, r.start < r.stop)
    (hch : List.Chain' (fun a b => b.stop ≤ a.start) rs)
    (hlow : ∀ r ∈ rs, p ≤ r.start) (hmp : m < p) :
    (∀ r ∈ SyncData.proceed rs m check, r.start < r.stop) ∧
    List.Chain' (fun a b => b.stop ≤ a.start) (SyncData.proceed rs m check) ∧
    (∀ r ∈ SyncData.proceed rs m check, m ≤ r.start) := by
  simp only [SyncData.proceed]
  split
  · rename_i last hl
    have hrs : rs.dropLast ++ [last] = rs := List.dropLast_append_getLast? last hl
    have hlwf : last.start < last.stop := hwf last (by rw [← hrs]; simp)
    split
    · rename_i hcond
      obtain ⟨hc1, hc2⟩ := hcond
      have hch2 := hch
      rw [← hrs] at hch2
      rw [List.chain'_append] at hch2
      refine ⟨?_, ?_, ?_⟩
      · intro r hr
        rcases List.mem_append.mp hr with hr' | hr'
        · exact hwf r ((List.dropLast_sublist rs).subset hr')
        · simp at hr'
          subst hr'
          simp
          omega
      · rw [List.chain'_append]
        refine ⟨hch2.1, List.chain'_singleton _, ?_⟩
        intro x hx y hy
        simp at hy
        subst hy
        have := hch2.2.2 x hx last (by simp)
        simpa using this
      · intro r hr
        rcases List.mem_append.mp hr with hr' | hr'
        · have := hlow r ((List.dropLast_sublist rs).subset hr')
          omega
        · simp at hr'
          subst hr'
          simp
    · refine ⟨?_, ?_, ?_⟩
      · intro r hr
        rcases List.mem_append.mp hr with hr' | hr'
        · exact hwf r hr'
        · simp at hr'
          subst hr'
          simp
      · rw [List.chain'_append]
        refine ⟨hch, List.chain'_singleton _, ?_⟩
        intro x hx y hy
        simp at hy
        subst hy
        rw [hl] at hx
        simp at hx
        subst hx
        have := hlow last (by rw [← hrs]; simp)
        simp
        omega
      · intro r hr
        rcases List.mem_append.mp hr with hr' | hr'
        · have := hlow r hr'
          omega
        · simp at hr'
          subst hr'
          simp
  · rename_i hl
    have hnil : rs = [] := List.getLast?_eq_none_iff.mp hl
    subst hnil
    refine ⟨?_, ?_, ?_⟩
    · intro r hr
      rw [List.nil_append] at hr
      simp at hr
      subst hr
      simp
    · rw [List.nil_append]
      exact List.chain'_singleton _
    · intro r hr
      rw [List.nil_append] at hr
      simp at hr
      subst hr
      simp

/-- A nonempty-range chain-disjoint sequence is pairwise disjoint with
strictly descending starts. -/
theorem chain_wf_sorted (rs : List Range32)
    (hwf : ∀ r ∈ rs, r.start < r.stop)
    (hch : List.Chain' (fun a b => b.stop ≤ a.start) rs) :
    ranges_sorted rs := by
  induction rs with
  | nil => exact List.Pairwise.nil
  | cons a rest ih =>
    have hp := ih (fun r hr => hwf r (List.mem_cons_of_mem _ hr)) hch.tail
    refine List.Pairwise.cons ?_ hp
    intro b hb
    cases rest with
    | nil => cases hb
    | cons c rest' =>
      have hac : c.stop ≤ a.start := (List.chain'_cons.mp hch).1
      have hcwf : c.start < c.stop := hwf c (by simp)
      rcases List.mem_cons.mp hb with rfl | hb'
      · constructor <;> omega
      · have hpc := (List.pairwise_cons.mp hp).1 b hb'
        have hbwf : b.start < b.stop := hwf b (List.mem_cons_of_mem _ hb)
        constructor <;> omega

/-- In a sorted sequence the last range has the numerically lowest start. -/
theorem sorted_last_lowest (rs : List Range32) (hs : ranges_sorted rs)
    (la : Range32) (hla : rs.getLast? = some la) :
    ∀ r ∈ rs, la.start ≤ r.start := by
  intro r hr
  have hrs : rs.dropLast ++ [la] = rs := List.dropLast_append_getLast? la hla
  rw [← hrs] at hs hr
  rw [ranges_sorted, List.pairwise_append] at hs
  rcases List.mem_append.mp hr with hr' | hr'
  · have := hs.2.2 r hr' la (by simp)
    omega
  · simp at hr'
    subst hr'
    exact le_refl _

/-- `process_gaps` preserves nonemptiness, chain-disjointness and the start
lower bound (weakened from `p` to `m + 1`) of the gap sequence. -/
theorem process_gaps_ordering (sd : SyncData) (p m : Nat)
    (hgwf : ∀ r ∈ sd.gaps, r.start < r.stop)
    (hgch : List.Chain' (fun a b => b.stop ≤ a.start) sd.gaps)
    (hglow : ∀ r ∈ sd.gaps, p ≤ r.start) (hmp : m < p) :
    (∀ r ∈ (sd.process_gaps p m).gaps, r.start < r.stop) ∧
    List.Chain' (fun a b => b.stop ≤ a.start) (sd.process_gaps p m).gaps ∧
    (∀ r ∈ (sd.process_gaps p m).gaps, m + 1 ≤ r.start) := by
  simp only [SyncData.process_gaps]
  split
  · refine ⟨?_, ?_, ?_⟩
    · intro r hr
      rcases List.mem_append.mp hr with hr' | hr'
      · exact hgwf r hr'
      · simp at hr'
        subst hr'
        simp
        omega
    · rw [List.chain'_append]
      refine ⟨hgch, List.chain'_singleton _, ?_⟩
      intro x hx y hy
      simp at hy
      subst hy
      have hxl : x ∈ sd.gaps := by
        have hd := List.dropLast_append_getLast? x hx
        rw [← hd]
        simp
      have := hglow x hxl
      simp
      omega
    · intro r hr
      rcases List.mem_append.mp hr with hr' | hr'
      · have := hglow r hr'
        omega
      · simp at hr'
        subst hr'
        simp
  · refine ⟨hgwf, hgch, ?_⟩
    intro r hr
    have := hglow r hr
    omega

/-- One record step of the reconciliation (gap emission, then
classification) pushes the partition lower bound from `p` down to the
processed index `m`. -/
theorem loop_inv_step (t p m : Nat) (lb plb : Option Nat) (sd : SyncData)
    (hmp : m < p) (hpt : p ≤ t) (hinv : loop_inv t p sd) :
    loop_inv t m ((sd.process_gaps p m).process_rest lb m plb) := by
  obtain ⟨hcount, ⟨hcwf, hcch⟩, ⟨huwf, huch⟩, ⟨hgwf, hgch⟩, hclow, hulow, hglow⟩ := hinv
  have hpg := process_gaps_ordering sd p m hgwf hgch hglow hmp
  have hc1 : (sd.process_gaps p m).completed = sd.completed := (cnt_process_gaps sd p m 0).2.1
  have hu1 : (sd.process_gaps p m).synced_but_unlogged = sd.synced_but_unlogged :=
    (cnt_process_gaps sd p m 0).2.2
  have hcount1 : ∀ i, (sd.process_gaps p m).total_count i =
      if m + 1 ≤ i ∧ i < t then 1 else 0 := by
    intro i
    have hg := (cnt_process_gaps sd p m i).1
    have h0 := hcount i
    simp only [SyncData.total_count] at h0 ⊢
    rw [hc1, hu1, hg]
    split_ifs at h0 ⊢ <;> omega
  simp only [SyncData.process_rest]
  split
  · have hpo := proceed_ordering (sd.process_gaps p m).completed m p plb.isSome
      (by rw [hc1]; exact hcwf) (by rw [hc1]; exact hcch) (by rw [hc1]; exact hclow) hmp
    refine ⟨?_, ⟨hpo.1, hpo.2.1⟩, ⟨by rw [hu1]; exact huwf, by rw [hu1]; exact huch⟩,
      ⟨hpg.1, hpg.2.1⟩, hpo.2.2, ?_, ?_⟩
    · intro i
      have hc := cnt_proceed (sd.process_gaps p m).completed m plb.isSome i
        (by rw [hc1]; exact hcwf)
      have h1 := hcount1 i
      simp only [SyncData.total_count] at h1 ⊢
      rw [hc]
      split_ifs at h1 ⊢ <;> omega
    · intro r hr
      rw [hu1] at hr
      have := hulow r hr
      omega
    · intro r hr
      have := hpg.2.2 r hr
      omega
  · have hpo := proceed_ordering (sd.process_gaps p m).synced_but_unlogged m p plb.isNone
      (by rw [hu1]; exact huwf) (by rw [hu1]; exact huch) (by rw [hu1]; exact hulow) hmp
    refine ⟨?_, ⟨by rw [hc1]; exact hcwf, by rw [hc1]; exact hcch⟩, ⟨hpo.1, hpo.2.1⟩,
      ⟨hpg.1, hpg.2.1⟩, ?_, hpo.2.2, ?_⟩
    · intro i
      have hc := cnt_proceed (sd.process_gaps p m).synced_but_unlogged m plb.isNone i
        (by rw [hu1]; exact huwf)
      have h1 := hcount1 i
      simp only [SyncData.total_count] at h1 ⊢
      rw [hc]
      split_ifs at h1 ⊢ <;> omega
    · intro r hr
      rw [hc1] at hr
      have := hclow r hr
      omega
    · intro r hr
      have := hpg.2.2 r hr
      omega

/-- The reconciliation loop maintains `loop_inv`, ending at the stream's
lowest index. -/
theorem try_fetch_loop_inv (f t : Nat) (rest : List SyncRecord) :
    ∀ (sd : SyncData) (p : Nat) (lb : Option Nat),
      records_descending_below p rest = true → records_at_least f rest = true →
      f ≤ p → p ≤ t → loop_inv t p sd →
      (SyncData.try_fetch_loop sd p lb rest).2 = last_index p rest ∧
      f ≤ (SyncData.try_fetch_loop sd p lb rest).2 ∧
      (SyncData.try_fetch_loop sd p lb rest).2 ≤ p ∧
      loop_inv t (SyncData.try_fetch_loop sd p lb rest).2 (SyncData.try_fetch_loop sd p lb rest).1 := by
  induction rest with
  | nil =>
    intro sd p lb _ _ hfp _ hinv
    exact ⟨rfl, hfp, le_refl _, hinv⟩
  | cons r rest' ih =>
    intro sd p lb hdesc hlow hfp hpt hinv
    simp only [records_descending_below, Bool.and_eq_true, decide_eq_true_eq] at hdesc
    simp only [records_at_least, List.all_cons, Bool.and_eq_true, decide_eq_true_eq] at hlow
    have hstep := loop_inv_step t p r.milestone_index r.logged_by lb sd hdesc.1 hpt hinv
    have hrec := ih _ r.milestone_index r.logged_by hdesc.2 hlow.2 hlow.1
      (le_trans (le_of_lt hdesc.1) hpt) hstep
    have hle : (SyncData.try_fetch_loop
        ((sd.process_gaps p r.milestone_index).process_rest r.logged_by r.milestone_index lb)
        r.milestone_index r.logged_by rest').2 ≤ p :=
      le_trans hrec.2.2.1 (le_of_lt hdesc.1)
    exact ⟨hrec.1, hrec.2.1, hle, hrec.2.2.2⟩

/-- `loop_inv` holds trivially before any record is processed. -/
theorem loop_inv_default (t : Nat) : loop_inv t t SyncData.default := by
  refine ⟨?_, ?_, ?_, ?_, ?_, ?_, ?_⟩
  · intro i
    simp only [SyncData.default, SyncData.total_count, cnt, List.countP_nil]
    split_ifs <;> omega
  all_goals simp [SyncData.default]

/-- Master description of a successful `try_fetch`: the three sequences
count every index of `[from, to)` exactly once, and each sequence is sorted
(pairwise disjoint, strictly descending starts). -/
theorem try_fetch_inv (f t : Nat) (records : List SyncRecord) (sd : SyncData)
    (hf : 1 ≤ f) (hdesc : records_descending_below t records = true)
    (hlow : records_at_least f records = true)
    (hfetch : SyncData.try_fetch f t records = some sd) :
    (∀ i, sd.total_count i = if f ≤ i ∧ i < t then 1 else 0) ∧
    ranges_sorted sd.completed ∧ ranges_sorted sd.synced_but_unlogged ∧
    ranges_sorted sd.gaps := by
  have hne : ¬(f = 0) := by omega
  cases records with
  | nil =>
    simp only [SyncData.try_fetch, hne, if_false, Option.some.injEq, ite_false] at hfetch
    subst hfetch
    simp only [SyncData.process_gaps, SyncData.default]
    have hf1 : f - 1 + 1 = f := by omega
    rw [hf1]
    split
    · refine ⟨?_, List.Pairwise.nil, List.Pairwise.nil, List.pairwise_singleton _ _⟩
      intro i
      simp only [SyncData.total_count, cnt, List.countP_nil, List.countP_cons,
        decide_eq_true_eq]
      split_ifs <;> simp_all <;> omega
    · rename_i hft
      have hft' : f = t := by omega
      refine ⟨?_, List.Pairwise.nil, List.Pairwise.nil, List.Pairwise.nil⟩
      intro i
      simp only [SyncData.total_count, cnt, List.countP_nil]
      split_ifs <;> omega
  | cons r rest =>
    simp only [SyncData.try_fetch, hne, if_false, Option.some.injEq, ite_false] at hfetch
    simp only [records_descending_below, Bool.and_eq_true, decide_eq_true_eq] at hdesc
    simp only [records_at_least, List.all_cons, Bool.and_eq_true, decide_eq_true_eq] at hlow
    have hinv0 := loop_inv_default t
    have hstep := loop_inv_step t t r.milestone_index r.logged_by none SyncData.default
      hdesc.1 (le_refl t) hinv0
    have hloop := try_fetch_loop_inv f t rest _ r.milestone_index r.logged_by
      hdesc.2 hlow.2 hlow.1 (le_of_lt hdesc.1) hstep
    cases hres : SyncData.try_fetch_loop
        ((SyncData.default.process_gaps t r.milestone_index).process_rest r.logged_by
          r.milestone_index none) r.milestone_index r.logged_by rest with
    | mk sd' p' =>
      rw [hres] at hloop hfetch
      subst hfetch
      obtain ⟨hcount, ⟨hcwf, hcch⟩, ⟨huwf, huch⟩, ⟨hgwf, hgch⟩, hclow, hulow, hglow⟩ :=
        hloop.2.2.2
      have hfp : f ≤ p' := hloop.2.1
      have hpt : p' < t := lt_of_le_of_lt hloop.2.2.1 hdesc.1
      have hfm : f - 1 < p' := by omega
      have hpg := process_gaps_ordering sd' p' (f - 1) hgwf hgch hglow hfm
      have hc1 := (cnt_process_gaps sd' p' (f - 1) 0).2.1
      have hu1 := (cnt_process_gaps sd' p' (f - 1) 0).2.2
      refine ⟨?_, ?_, ?_, chain_wf_sorted _ hpg.1 hpg.2.1⟩
      · intro i
        have hg := (cnt_process_gaps sd' p' (f - 1) i).1
        have h0 := hcount i
        simp only [SyncData.total_count] at h0 ⊢
        rw [hc1, hu1, hg]
        split_ifs at h0 ⊢ <;> omega
      · rw [hc1]
        exact chain_wf_sorted _ hcwf hcch
      · rw [hu1]
        exact chain_wf_sorted _ huwf huch

/-- C1: for every sync-record stream with distinct indices in `[from, to)`
(`from ≥ 1`) arriving in strictly descending order, the three sequences
built by `try_fetch` partition `[from, to)` exactly: each index of the
queried range is contained in exactly one range of exactly one sequence, and
no index outside it is covered. -/
theorem sync_partition (f t : Nat) (records : List SyncRecord) (sd : SyncData)
    (hf : 1 ≤ f) (hdesc : records_descending_below t records = true)
    (hlow : records_at_least f records = true)
    (hfetch : SyncData.try_fetch f t records = some sd) :
    ∀ i : Nat, sd.total_count i = if f ≤ i ∧ i < t then 1 else 0 :=
  (try_fetch_inv f t records sd hf hdesc hlow hfetch).1

/-- Witness for `sync_partition` on the spec's worked example
`[(100, Some 1), (98, None), (95, Some 1)]` over `[90, 101)`. -/
theorem sync_partition_witness :
    SyncData.total_count 95
      ⟨[⟨100, 101⟩, ⟨95, 96⟩], [⟨98, 99⟩], [⟨99, 100⟩, ⟨96, 98⟩, ⟨90, 95⟩]⟩ = 1 ∧
    SyncData.total_count 89
      ⟨[⟨100, 101⟩, ⟨95, 96⟩], [⟨98, 99⟩], [⟨99, 100⟩, ⟨96, 98⟩, ⟨90, 95⟩]⟩ = 0 := by
  have h := sync_partition 90 101 [⟨100, some 1⟩, ⟨98, none⟩, ⟨95, some 1⟩]
    ⟨[⟨100, 101⟩, ⟨95, 96⟩], [⟨98, 99⟩], [⟨99, 100⟩, ⟨96, 98⟩, ⟨90, 95⟩]⟩
    (by decide) (by decide) (by decide) rfl
  constructor
  · have h95 := h 95
    simpa using h95
  · have h89 := h 89
    simpa using h89

/-- `take_lowest_gap_or_unlogged` only pops: the completed sequence is
untouched and the other two end up sublists of themselves. -/
theorem take_glu_sublist (sd : SyncData) :
    (sd.take_lowest_gap_or_unlogged).2.completed = sd.completed ∧
    (sd.take_lowest_gap_or_unlogged).2.gaps.Sublist sd.gaps ∧
    (sd.take_lowest_gap_or_unlogged).2.synced_but_unlogged.Sublist sd.synced_but_unlogged := by
  simp only [SyncData.take_lowest_gap_or_unlogged]
  split
  · split
    · exact ⟨rfl, List.dropLast_sublist _, List.Sublist.refl _⟩
    · exact ⟨rfl, List.Sublist.refl _, List.dropLast_sublist _⟩
  · exact ⟨rfl, List.dropLast_sublist _, List.Sublist.refl _⟩
  · exact ⟨rfl, List.Sublist.refl _, List.dropLast_sublist _⟩
  · exact ⟨rfl, List.Sublist.refl _, List.Sublist.refl _⟩

/-- When a lowest range exists, popping it strictly shrinks the model. -/
theorem take_glu_size_lt (sd : SyncData) (r : Range32)
    (h : sd.get_lowest_gap_or_unlogged = some r) :
    (sd.take_lowest_gap_or_unlogged).2.size < sd.size := by
  simp only [SyncData.get_lowest_gap_or_unlogged] at h
  simp only [SyncData.take_lowest_gap_or_unlogged, SyncData.size]
  rcases hg : sd.gaps.getLast? with _ | g <;>
    rcases hu : sd.synced_but_unlogged.getLast? with _ | u <;>
    simp only [hg, hu] at h ⊢
  · exact absurd h (by simp)
  · have hne : sd.synced_but_unlogged ≠ [] := by
      intro hnil
      rw [hnil] at hu
      simp at hu
    have := List.length_pos.mpr hne
    simp only [List.length_dropLast]
    omega
  · have hne : sd.gaps ≠ [] := by
      intro hnil
      rw [hnil] at hg
      simp at hg
    have := List.length_pos.mpr hne
    simp only [List.length_dropLast]
    omega
  · have hne : sd.gaps ≠ [] := by
      intro hnil
      rw [hnil] at hg
      simp at hg
    have hne' : sd.synced_but_unlogged ≠ [] := by
      intro hnil
      rw [hnil] at hu
      simp at hu
    have h1 := List.length_pos.mpr hne
    have h2 := List.length_pos.mpr hne'
    split <;> simp only [List.length_dropLast] <;> omega

/-- The coalescing loop only pops ranges: all three sequences of its final
state are sublists of the input's. -/
theorem uncomplete_loop_sublist (n : Nat) :
    ∀ (pre : Range32) (sd : SyncData), sd.size ≤ n →
      (SyncData.uncomplete_loop pre sd).2.completed = sd.completed ∧
      (SyncData.uncomplete_loop pre sd).2.gaps.Sublist sd.gaps ∧
      (SyncData.uncomplete_loop pre sd).2.synced_but_unlogged.Sublist
        sd.synced_but_unlogged := by
  induction n with
  | zero =>
    intro pre sd hsize
    have hg : sd.gaps = [] := by
      have := Nat.le_zero.mp hsize
      simp only [SyncData.size] at this
      exact List.length_eq_zero.mp (by omega)
    have hu : sd.synced_but_unlogged = [] := by
      have := Nat.le_zero.mp hsize
      simp only [SyncData.size] at this
      exact List.length_eq_zero.mp (by omega)
    have hget : sd.get_lowest_gap_or_unlogged = none := by
      simp [SyncData.get_lowest_gap_or_unlogged, hg, hu]
    rw [SyncData.uncomplete_loop]
    split
    · rename_i next hnext
      rw [hget] at hnext
      cases hnext
    · exact ⟨rfl, List.Sublist.refl _, List.Sublist.refl _⟩
  | succ n ih =>
    intro pre sd hsize
    rw [SyncData.uncomplete_loop]
    split
    · rename_i next hget
      split
      · have hlt := take_glu_size_lt sd next hget
        have h1 := take_glu_sublist sd
        have h2 := ih ⟨pre.start, next.stop⟩ (sd.take_lowest_gap_or_unlogged).2 (by omega)
        refine ⟨?_, h2.2.1.trans h1.2.1, h2.2.2.trans h1.2.2⟩
        rw [h2.1, h1.1]
      · exact ⟨rfl, List.Sublist.refl _, List.Sublist.refl _⟩
    · exact ⟨rfl, List.Sublist.refl _, List.Sublist.refl _⟩

/-- Every extraction operation preserves sortedness of all three sequences. -/
theorem take_ops_ordered (s : SyncData) (h : s.ordered) :
    (s.take_lowest_gap).2.ordered ∧ (s.take_lowest_unlogged).2.ordered ∧
    (s.take_lowest_gap_or_unlogged).2.ordered ∧ (s.take_lowest_uncomplete).2.ordered := by
  obtain ⟨hc, hu, hg⟩ := h
  refine ⟨⟨hc, hu, hg.sublist (List.dropLast_sublist _)⟩,
    ⟨hc, hu.sublist (List.dropLast_sublist _), hg⟩, ?_, ?_⟩
  · have hs := take_glu_sublist s
    exact ⟨by rw [hs.1]; exact hc, hu.sublist hs.2.2, hg.sublist hs.2.1⟩
  · simp only [SyncData.take_lowest_uncomplete]
    split
    · rename_i pre sd1 htake
      have hs : sd1 = (s.take_lowest_gap_or_unlogged).2 := by rw [htake]
      have h1 := take_glu_sublist s
      have h2 := uncomplete_loop_sublist sd1.size pre sd1 (le_refl _)
      subst hs
      exact ⟨by rw [h2.1, h1.1]; exact hc, hu.sublist (h2.2.2.trans h1.2.2),
        hg.sublist (h2.2.1.trans h1.2.1)⟩
    · exact ⟨hc, hu, hg⟩

/-- C5: a successful `try_fetch` produces three sequences each holding
pairwise disjoint ranges in strictly descending order of start (so each
sequence's last element is its numerically lowest range), and every take
operation preserves this ordering on the remaining sequences. -/
theorem sync_construction_ordered (f t : Nat) (records : List SyncRecord) (sd : SyncData)
    (hf : 1 ≤ f) (hdesc : records_descending_below t records = true)
    (hlow : records_at_least f records = true)
    (hfetch : SyncData.try_fetch f t records = some sd) :
    sd.ordered ∧
    (∀ rs : List Range32, ranges_sorted rs → ∀ la, rs.getLast? = some la →
      ∀ r ∈ rs, la.start ≤ r.start) ∧
    (∀ s : SyncData, s.ordered →
      (s.take_lowest_gap).2.ordered ∧ (s.take_lowest_unlogged).2.ordered ∧
      (s.take_lowest_gap_or_unlogged).2.ordered ∧ (s.take_lowest_uncomplete).2.ordered) := by
  have hinv := try_fetch_inv f t records sd hf hdesc hlow hfetch
  exact ⟨⟨hinv.2.1, hinv.2.2.1, hinv.2.2.2⟩,
    fun rs hs la hla => sorted_last_lowest rs hs la hla,
    fun s hs => take_ops_ordered s hs⟩

/-- Witness for `sync_construction_ordered` on the spec's worked example. -/
theorem sync_construction_ordered_witness :
    (⟨[⟨100, 101⟩, ⟨95, 96⟩], [⟨98, 99⟩], [⟨99, 100⟩, ⟨96, 98⟩, ⟨90, 95⟩]⟩ : SyncData).ordered :=
  (sync_construction_ordered 90 101 [⟨100, some 1⟩, ⟨98, none⟩, ⟨95, some 1⟩]
    ⟨[⟨100, 101⟩, ⟨95, 96⟩], [⟨98, 99⟩], [⟨99, 100⟩, ⟨96, 98⟩, ⟨90, 95⟩]⟩
    (by decide) (by decide) (by decide) rfl).1

/-- A list with last element `x` reversed starts with `x`. -/
theorem reverse_cons_of_getLast (l : List Range32) (x : Range32) (h : l.getLast? = some x) :
    l.reverse = x :: l.dropLast.reverse := by
  have hh : l.reverse.head? = some x := by rw [List.head?_reverse]; exact h
  cases hrev : l.reverse with
  | nil =>
    rw [hrev] at hh
    cases hh
  | cons a tl =>
    rw [hrev] at hh
    simp at hh
    subst hh
    have htl : tl = l.dropLast.reverse := by
      rw [← List.tail_reverse_eq_reverse_dropLast, hrev]
      rfl
    rw [htl]

/-- Merging with an empty second list is the identity. -/
theorem mergeAsc_nil_right (xs : List Range32) : mergeAsc xs [] = xs := by
  cases xs <;> simp [mergeAsc]

/-- Merging with an empty first list is the identity. -/
theorem mergeAsc_nil_left (ys : List Range32) : mergeAsc [] ys = ys := by
  simp [mergeAsc]

/-- The merge of two range lists is empty exactly when both are. -/
theorem mergeAsc_eq_nil_iff (xs ys : List Range32) :
    mergeAsc xs ys = [] ↔ xs = [] ∧ ys = [] := by
  cases xs with
  | nil => cases ys <;> simp [mergeAsc]
  | cons x xs' =>
    cases ys with
    | nil => simp [mergeAsc]
    | cons y ys' =>
      simp only [mergeAsc]
      split <;> simp

/-- The accumulated range of `spec_coalesce` keeps the accumulator's start. -/
theorem spec_coalesce_start (l : List Range32) :
    ∀ acc : Range32, (spec_coalesce acc l).1.start = acc.start := by
  induction l with
  | nil =>
    intro acc
    rfl
  | cons r rest ih =>
    intro acc
    simp only [spec_coalesce]
    split
    · exact ih ⟨acc.start, r.stop⟩
    · rfl

/-- `get_lowest_gap_or_unlogged` is the head of the merged work list. -/
theorem get_glu_head (sd : SyncData) :
    sd.get_lowest_gap_or_unlogged = sd.merged.head? := by
  simp only [SyncData.get_lowest_gap_or_unlogged, SyncData.merged]
  rcases hg : sd.gaps.getLast? with _ | g <;>
    rcases hu : sd.synced_but_unlogged.getLast? with _ | u
  · have e1 := List.getLast?_eq_none_iff.mp hg
    have e2 := List.getLast?_eq_none_iff.mp hu
    simp [e1, e2, mergeAsc]
  · have e1 := List.getLast?_eq_none_iff.mp hg
    have h2 := reverse_cons_of_getLast _ u hu
    simp [e1, h2, mergeAsc_nil_left]
  · have e2 := List.getLast?_eq_none_iff.mp hu
    have h1 := reverse_cons_of_getLast _ g hg
    simp [e2, h1, mergeAsc_nil_right]
  · have h1 := reverse_cons_of_getLast _ g hg
    have h2 := reverse_cons_of_getLast _ u hu
    rw [h1, h2]
    simp only [mergeAsc]
    split <;> simp

/-- `take_lowest_gap_or_unlogged` pops the head of the merged work list. -/
theorem take_glu_merged (sd : SyncData) :
    (sd.take_lowest_gap_or_unlogged).1 = sd.merged.head? ∧
    (sd.take_lowest_gap_or_unlogged).2.merged = sd.merged.tail := by
  simp only [SyncData.take_lowest_gap_or_unlogged, SyncData.merged]
  rcases hg : sd.gaps.getLast? with _ | g <;>
    rcases hu : sd.synced_but_unlogged.getLast? with _ | u <;>
    simp only [hg, hu]
  · have e1 := List.getLast?_eq_none_iff.mp hg
    have e2 := List.getLast?_eq_none_iff.mp hu
    simp [e1, e2, mergeAsc]
  · have e1 := List.getLast?_eq_none_iff.mp hg
    have h2 := reverse_cons_of_getLast _ u hu
    simp [e1, h2, mergeAsc_nil_left, List.tail_reverse_eq_reverse_dropLast]
  · have e2 := List.getLast?_eq_none_iff.mp hu
    have h1 := reverse_cons_of_getLast _ g hg
    simp [e2, h1, mergeAsc_nil_right, List.tail_reverse_eq_reverse_dropLast]
  · have h1 := reverse_cons_of_getLast _ g hg
    have h2 := reverse_cons_of_getLast _ u hu
    rw [h1, h2]
    simp only [mergeAsc]
    split
    · constructor
      · simp
      · simp only [List.tail_cons]
        rw [show (sd.gaps.dropLast.reverse : List Range32) =
          ({ sd with gaps := sd.gaps.dropLast } : SyncData).gaps.reverse from rfl]
        rw [← h2]
    · constructor
      · simp
      · simp only [List.tail_cons]
        rw [show (sd.synced_but_unlogged.dropLast.reverse : List Range32) =
          ({ sd with synced_but_unlogged := sd.synced_but_unlogged.dropLast } :
            SyncData).synced_but_unlogged.reverse from rfl]
        rw [← h1]

/-- The coalescing loop of `take_lowest_uncomplete` computes `spec_coalesce`
on the merged work list. -/
theorem uncomplete_loop_coalesce (n : Nat) :
    ∀ (pre : Range32) (sd : SyncData), sd.size ≤ n →
      (SyncData.uncomplete_loop pre sd).1 = some (spec_coalesce pre sd.merged).1 ∧
      (SyncData.uncomplete_loop pre sd).2.merged = (spec_coalesce pre sd.merged).2 := by
  induction n with
  | zero =>
    intro pre sd hsize
    have hgap : sd.gaps = [] := by
      have := Nat.le_zero.mp hsize
      simp only [SyncData.size] at this
      exact List.length_eq_zero.mp (by omega)
    have hunl : sd.synced_but_unlogged = [] := by
      have := Nat.le_zero.mp hsize
      simp only [SyncData.size] at this
      exact List.length_eq_zero.mp (by omega)
    have hm : sd.merged = [] := by
      simp [SyncData.merged, hgap, hunl, mergeAsc]
    have hget : sd.get_lowest_gap_or_unlogged = none := by
      rw [get_glu_head, hm]
      rfl
    rw [SyncData.uncomplete_loop]
    split
    · rename_i next hnext
      rw [hget] at hnext
      cases hnext
    · simp [hm, spec_coalesce]
  | succ n ih =>
    intro pre sd hsize
    rw [SyncData.uncomplete_loop]
    split
    · rename_i next hnext
      have hmerged : sd.merged = next :: sd.merged.tail := by
        have hh := hnext
        rw [get_glu_head] at hh
        cases hm : sd.merged with
        | nil =>
          rw [hm] at hh
          cases hh
        | cons a tl =>
          rw [hm] at hh
          simp at hh
          rw [List.tail_cons, hh]
      split
      · rename_i habut
        have hlt := take_glu_size_lt sd next hnext
        have htm := take_glu_merged sd
        have h2 := ih ⟨pre.start, next.stop⟩ (sd.take_lowest_gap_or_unlogged).2 (by omega)
        rw [htm.2] at h2
        rw [hmerged]
        simp only [spec_coalesce]
        rw [if_pos habut]
        exact h2
      · rename_i habut
        constructor
        · rw [hmerged]
          simp only [spec_coalesce]
          rw [if_neg habut]
        · conv_rhs => rw [hmerged]
          simp only [spec_coalesce]
          rw [if_neg habut]
          exact hmerged
    · rename_i hnone
      have hm : sd.merged = [] := by
        have hh := hnone
        rw [get_glu_head] at hh
        exact List.head?_eq_none_iff.mp hh
      simp [hm, spec_coalesce]

/-- With both sequences sorted, the head of the merged list starts no higher
than any queued range. -/
theorem merged_head_lowest (sd : SyncData) (hsg : ranges_sorted sd.gaps)
    (hsu : ranges_sorted sd.synced_but_unlogged) (r : Range32) (rs : List Range32)
    (hm : sd.merged = r :: rs) :
    (∀ q ∈ sd.gaps, r.start ≤ q.start) ∧
    (∀ q ∈ sd.synced_but_unlogged, r.start ≤ q.start) := by
  rcases hgl : sd.gaps.getLast? with _ | g <;>
    rcases hul : sd.synced_but_unlogged.getLast? with _ | u
  · have e1 := List.getLast?_eq_none_iff.mp hgl
    have e2 := List.getLast?_eq_none_iff.mp hul
    rw [SyncData.merged, e1, e2] at hm
    simp [mergeAsc] at hm
  · have e1 := List.getLast?_eq_none_iff.mp hgl
    have h2 := reverse_cons_of_getLast _ u hul
    rw [SyncData.merged, e1, h2] at hm
    simp only [List.reverse_nil, mergeAsc] at hm
    injection hm with h3 _
    subst h3
    constructor
    · intro q hq
      rw [e1] at hq
      cases hq
    · exact sorted_last_lowest _ hsu u hul
  · have e2 := List.getLast?_eq_none_iff.mp hul
    have h1 := reverse_cons_of_getLast _ g hgl
    rw [SyncData.merged, e2, h1] at hm
    simp only [List.reverse_nil, mergeAsc] at hm
    injection hm with h3 _
    subst h3
    constructor
    · exact sorted_last_lowest _ hsg g hgl
    · intro q hq
      rw [e2] at hq
      cases hq
  · have h1 := reverse_cons_of_getLast _ g hgl
    have h2 := reverse_cons_of_getLast _ u hul
    rw [SyncData.merged, h1, h2] at hm
    simp only [mergeAsc] at hm
    by_cases hlt : g.start < u.start
    · rw [if_pos hlt] at hm
      injection hm with h3 _
      subst h3
      refine ⟨sorted_last_lowest _ hsg g hgl, ?_⟩
      intro q hq
      exact le_trans (le_of_lt hlt) (sorted_last_lowest _ hsu u hul q hq)
    · rw [if_neg hlt] at hm
      injection hm with h3 _
      subst h3
      refine ⟨?_, sorted_last_lowest _ hsu u hul⟩
      intro q hq
      exact le_trans (Nat.not_lt.mp hlt) (sorted_last_lowest _ hsg g hgl q hq)

/-- C4: on sorted disjoint sequences, `take_lowest_uncomplete` returns
nothing exactly when both sequences are empty; otherwise it returns the
coalescing (per `spec_coalesce`) of the maximal abutting run starting at the
numerically lowest queued range - whose start is a lower bound for every
queued range, so no lower range is skipped - removes exactly that run
(leaving the merged remainder and only popped sequences), and leaves the
completed sequence untouched. -/
theorem take_lowest_uncomplete_spec (sd : SyncData)
    (hsg : ranges_sorted sd.gaps) (hsu : ranges_sorted sd.synced_but_unlogged) :
    ((sd.take_lowest_uncomplete).1 = none ↔ sd.gaps = [] ∧ sd.synced_but_unlogged = []) ∧
    (∀ r rs, sd.merged = r :: rs →
      (sd.take_lowest_uncomplete).1 = some (spec_coalesce r rs).1 ∧
      (sd.take_lowest_uncomplete).2.merged = (spec_coalesce r rs).2 ∧
      (spec_coalesce r rs).1.start = r.start ∧
      (∀ q ∈ sd.gaps, r.start ≤ q.start) ∧
      (∀ q ∈ sd.synced_but_unlogged, r.start ≤ q.start)) ∧
    (sd.take_lowest_uncomplete).2.completed = sd.completed ∧
    (sd.take_lowest_uncomplete).2.gaps.Sublist sd.gaps ∧
    (sd.take_lowest_uncomplete).2.synced_but_unlogged.Sublist sd.synced_but_unlogged := by
  have htm := take_glu_merged sd
  have hts := take_glu_sublist sd
  refine ⟨?_, ?_, ?_⟩
  · cases hm : sd.merged with
    | nil =>
      have hnil := (mergeAsc_eq_nil_iff _ _).mp hm
      have e1 : sd.gaps = [] := List.reverse_eq_nil_iff.mp hnil.1
      have e2 : sd.synced_but_unlogged = [] := List.reverse_eq_nil_iff.mp hnil.2
      have htk : sd.take_lowest_gap_or_unlogged = (none, sd) := by
        simp [SyncData.take_lowest_gap_or_unlogged, e1, e2]
      simp only [SyncData.take_lowest_uncomplete, htk]
      simp [e1, e2]
    | cons a tl =>
      cases htk : sd.take_lowest_gap_or_unlogged with
      | mk o sd1 =>
        rw [htk] at htm
        have ho : o = some a := by
          rw [show o = sd.merged.head? from htm.1, hm]
          rfl
        subst ho
        simp only [SyncData.take_lowest_uncomplete, htk]
        have hloop := uncomplete_loop_coalesce sd1.size a sd1 (le_refl _)
        constructor
        · intro hcontra
          rw [hloop.1] at hcontra
          cases hcontra
        · intro hcontra
          rw [SyncData.merged, hcontra.1, hcontra.2] at hm
          simp [mergeAsc] at hm
  · intro r rs hm
    cases htk : sd.take_lowest_gap_or_unlogged with
    | mk o sd1 =>
      rw [htk] at htm hts
      have ho : o = some r := by
        rw [show o = sd.merged.head? from htm.1, hm]
        rfl
      subst ho
      have hm1 : sd1.merged = rs := by
        rw [show sd1.merged = sd.merged.tail from htm.2, hm]
        rfl
      simp only [SyncData.take_lowest_uncomplete, htk]
      have hloop := uncomplete_loop_coalesce sd1.size r sd1 (le_refl _)
      rw [hm1] at hloop
      have hsl := uncomplete_loop_sublist sd1.size r sd1 (le_refl _)
      exact ⟨hloop.1, hloop.2, spec_coalesce_start rs r,
        (merged_head_lowest sd hsg hsu r rs hm).1,
        (merged_head_lowest sd hsg hsu r rs hm).2⟩
  · cases htk : sd.take_lowest_gap_or_unlogged with
    | mk o sd1 =>
      rw [htk] at htm hts
      cases o with
      | none =>
        have hval : sd.take_lowest_uncomplete = (none, sd) := by
          simp only [SyncData.take_lowest_uncomplete, htk]
        rw [hval]
        exact ⟨rfl, List.Sublist.refl _, List.Sublist.refl _⟩
      | some pre =>
        simp only [SyncData.take_lowest_uncomplete, htk]
        have hsl := uncomplete_loop_sublist sd1.size pre sd1 (le_refl _)
        exact ⟨by rw [hsl.1, hts.1], hsl.2.1.trans hts.2.1, hsl.2.2.trans hts.2.2⟩

/-- Witness for `take_lowest_uncomplete_spec`: gaps `[[96,98), [90,95)]` and
unlogged `[[95,96)]` coalesce into the single range `[90, 98)`. -/
theorem take_lowest_uncomplete_spec_witness :
    (SyncData.take_lowest_uncomplete ⟨[], [⟨95, 96⟩], [⟨96, 98⟩, ⟨90, 95⟩]⟩).1 =
      some (spec_coalesce ⟨90, 95⟩ [⟨95, 96⟩, ⟨96, 98⟩]).1 := by
  have h := take_lowest_uncomplete_spec ⟨[], [⟨95, 96⟩], [⟨96, 98⟩, ⟨90, 95⟩]⟩
    (by decide) (by decide)
  exact (h.2.1 ⟨90, 95⟩ [⟨95, 96⟩, ⟨96, 98⟩] (by simp [SyncData.merged, mergeAsc])).1

end Chronicle
